import Mathlib

/-!
Verification of the VM-curator launch-script core: the extractor
(`vm/launch_parser.rs`), discovery (`vm/discovery.rs`) and the network
synthesizer, shallowly embedded over `Str := List Char` (Rust `&str`
operations become structural functions on character lists; byte-level
ASCII behaviour coincides with the character-level model on the inputs
of interest).
-/

/-- Rust string slices are modelled as lists of characters. -/
abbrev Str := List Char

/-- Coerce a Lean string literal into the model. -/
def str (s : String) : Str := s.toList

/-- Rust `str::contains(pat)`: some suffix of `s` has `p` as a prefix. -/
def containsStr : Str → Str → Bool
  | [], p => p.isEmpty
  | s@(_ :: rest), p => p.isPrefixOf s || containsStr rest p

/-- Rust `str::find(pat)`: character index of the first match of `p` in `s`. -/
def findStr : Str → Str → Option Nat
  | [], p => if p.isEmpty then some 0 else none
  | s@(_ :: rest), p =>
    if p.isPrefixOf s then some 0 else (findStr rest p).map (· + 1)

/-- Split on newline characters; contract of Rust `str::split('\n')`
(always at least one piece). -/
def splitOnNl : Str → List Str
  | [] => [[]]
  | c :: cs =>
    match splitOnNl cs with
    | [] => [[c]]
    | l :: ls => if c = '\n' then [] :: l :: ls else (c :: l) :: ls

/-- Remove one trailing carriage return, as Rust `str::lines` does per line. -/
def stripCr (l : Str) : Str :=
  match l.getLast? with
  | some c => if c = '\r' then l.dropLast else l
  | none => l

/-- Rust `str::lines`: split on newlines, drop the final empty piece
produced by a trailing newline, strip one trailing carriage return. -/
def rustLines (c : Str) : List Str :=
  let parts := splitOnNl c
  let parts := if parts.getLast? = some [] then parts.dropLast else parts
  parts.map stripCr

/-- Rust `u32::parse` restricted to runs of ASCII digits: fails on the
empty string and on overflow past `2 ^ 32`. -/
def parseU32 (s : Str) : Option Nat :=
  if s ≠ [] ∧ s.all Char.isDigit then
    let n := s.foldl (fun acc c => acc * 10 + (c.toNat - 48)) 0
    if n < 2 ^ 32 then some n else none
  else none

/-- Rust `line.trim_start().starts_with('#')`, the comment-line test used
by every per-line extraction loop. -/
def isCommentLine (line : Str) : Bool :=
  match line.dropWhile Char.isWhitespace with
  | '#' :: _ => true
  | _ => false

/-- Fuel-indexed worker for `replaceAll`; the fuel starts at the length
of the string, which always suffices. -/
def replaceAllAux (pat rep : Str) : Nat → Str → Str
  | 0, s => s
  | _ + 1, [] => []
  | n + 1, c :: cs =>
    if pat ≠ [] ∧ pat.isPrefixOf (c :: cs) then
      rep ++ replaceAllAux pat rep n (List.drop (pat.length - 1) cs)
    else
      c :: replaceAllAux pat rep n cs

/-- Rust `str::replace`: replace every non-overlapping occurrence of
`pat` by `rep`, scanning left to right. -/
def replaceAll (s pat rep : Str) : Str :=
  replaceAllAux pat rep s.length s

/-- Join a list of lines with newline separators; inverse of `splitOnNl`. -/
def nlJoin : List Str → Str
  | [] => []
  | [l] => l
  | l :: ls => l ++ '\n' :: nlJoin ls

/-- Worker for `splitWs`: accumulates the current word in reverse. -/
def splitWsAux : Str → Str → List Str
  | acc, [] => if acc = [] then [] else [acc.reverse]
  | acc, c :: cs =>
    if c.isWhitespace then
      if acc = [] then splitWsAux [] cs else acc.reverse :: splitWsAux [] cs
    else splitWsAux (c :: acc) cs

/-- Rust `str::split_whitespace`: whitespace-separated words, empties
dropped. -/
def splitWs (s : Str) : List Str := splitWsAux [] s

/-- Rust `char::to_ascii_uppercase` applied to the first character of a
word, as in `DiscoveredVm::display_name`. -/
def capitalizeFirst : Str → Str
  | [] => []
  | c :: cs => c.toUpper :: cs

/-- Rust `Path::parent` composed with `unwrap_or(Path::new("."))`, as in
`parse_launch_script`. -/
def parentDir (p : Str) : Str :=
  if p = [] ∨ p = ['/'] then str "."
  else
    match (List.range p.length).filter (fun i => p.get? i = some '/') with
    | [] => []
    | is =>
      match is.getLast? with
      | some 0 => ['/']
      | some i => p.take i
      | none => []

/-- Rust `Path::join` for a relative right-hand side. -/
def pathJoin (dir p : Str) : Str := dir ++ '/' :: p

/-- Modelled from the spec: `QemuEmulator` lives in `vm/qemu_config.rs`,
which is not under src/; the spec gives six known architectures plus an
unrecognized variant. -/
inductive QemuEmulator
  | x86_64 | i386 | ppc | m68k | arm | aarch64 | unrecognized
  deriving DecidableEq, Repr

/-- Modelled from the spec: `QemuEmulator::from_command` maps each of the
six canonical binary names to its variant. -/
def QemuEmulator.from_command (s : Str) : QemuEmulator :=
  if s = str "qemu-system-x86_64" then .x86_64
  else if s = str "qemu-system-i386" then .i386
  else if s = str "qemu-system-ppc" then .ppc
  else if s = str "qemu-system-m68k" then .m68k
  else if s = str "qemu-system-arm" then .arm
  else if s = str "qemu-system-aarch64" then .aarch64
  else .unrecognized

/-- Modelled from the spec: `VgaType` (six known backends plus
unrecognized), in `vm/qemu_config.rs` which is not under src/; the six
canonical tokens are those of the wizard's VGA option table. -/
inductive VgaType
  | std | virtio | qxl | cirrus | vmware | disabled | unrecognized (s : Str)
  deriving DecidableEq, Repr

/-- Modelled from the spec: `VgaType::from_str` maps each canonical token
to its variant and anything else to the unrecognized variant. -/
def VgaType.from_str (s : Str) : VgaType :=
  if s = str "std" then .std
  else if s = str "virtio" then .virtio
  else if s = str "qxl" then .qxl
  else if s = str "cirrus" then .cirrus
  else if s = str "vmware" then .vmware
  else if s = str "none" then .disabled
  else .unrecognized s

/-- The four audio device families recognized by `extract_audio_devices`. -/
inductive AudioDevice
  | sb16 | ac97 | hda | es1370
  deriving DecidableEq, Repr

/-- Modelled from the spec: `DiskFormat` in `vm/qemu_config.rs`, which is
not under src/; only the copy-on-write format (qcow2) supports snapshots,
and the raw format is the fallback. -/
inductive DiskFormat
  | qcow2 | raw | vmdk | vdi
  deriving DecidableEq, Repr

/-- Modelled from the spec: `DiskFormat::from_extension` infers the
format from a file extension, defaulting to raw when unknown. -/
def DiskFormat.from_extension (s : Str) : DiskFormat :=
  if s = str "qcow2" then .qcow2
  else if s = str "vmdk" then .vmdk
  else if s = str "vdi" then .vdi
  else .raw

/-- One disk of the configuration, as produced by `extract_disks`. -/
structure DiskConfig where
  path : Str
  format : DiskFormat
  interface : Str
  deriving DecidableEq, Repr

/-- Network configuration, as produced by `extract_network`. -/
structure NetworkConfig where
  model : Str
  user_net : Bool
  bridge : Option Str
  deriving DecidableEq, Repr

/-- Modelled from the spec: the type default of `NetworkConfig` (empty
model string, bridged flag false, no bridge name). -/
def NetworkConfig.default : NetworkConfig :=
  { model := [], user_net := false, bridge := none }

/-- The structured configuration extracted from a launch script
(`QemuConfig` in `vm/qemu_config.rs`). -/
structure QemuConfig where
  emulator : QemuEmulator
  memory_mb : Nat
  cpu_cores : Nat
  cpu_model : Option Str
  machine : Option Str
  vga : VgaType
  audio_devices : List AudioDevice
  enable_kvm : Bool
  uefi : Bool
  tpm : Bool
  disks : List DiskConfig
  network : Option NetworkConfig
  extra_args : List Str
  raw_script : Str
  deriving DecidableEq, Repr

/-- Modelled from the spec: `QemuConfig::default` leaves every field at
its type default (the spec fixes this for the fields the claims touch;
the default emulator variant is not observable in any claim). -/
def QemuConfig.default : QemuConfig :=
  { emulator := .unrecognized
    memory_mb := 0
    cpu_cores := 0
    cpu_model := none
    machine := none
    vga := .std
    audio_devices := []
    enable_kvm := false
    uefi := false
    tpm := false
    disks := []
    network := none
    extra_args := []
    raw_script := [] }

/-- The six emulator binary names searched by `extract_emulator`, in
source order. -/
def emulatorNames : List Str :=
  [str "qemu-system-x86_64", str "qemu-system-i386", str "qemu-system-ppc",
   str "qemu-system-m68k", str "qemu-system-arm", str "qemu-system-aarch64"]

/-- Worker for `extract_emulator`: first name contained anywhere in the
script wins. -/
def extractEmulatorGo (content : Str) : List Str → Option QemuEmulator
  | [] => none
  | e :: es =>
    if containsStr content e then some (QemuEmulator.from_command e)
    else extractEmulatorGo content es

/-- Function `extract_emulator` from `launch_parser.rs`. -/
def extract_emulator (content : Str) : Option QemuEmulator :=
  extractEmulatorGo content emulatorNames

/-- Loop body sequence of `extract_memory`: first non-comment line with a
parseable value after the memory flag returns. The source multiplies in
`u32`, so the scaling multiply is reduced modulo `2 ^ 32` (the wrapping
semantics of the machine integer). -/
def extractMemoryLines : List Str → Option Nat
  | [] => none
  | line :: restLines =>
    if isCommentLine line then extractMemoryLines restLines
    else
      match findStr line (str "-m ") with
      | some idx =>
        let rest := line.drop (idx + 3)
        let value := rest.takeWhile Char.isDigit
        match parseU32 value with
        | some mem =>
          if rest.contains 'G' then some (mem * 1024 % 2 ^ 32)
          else if mem < 64 then some (mem * 1024 % 2 ^ 32)
          else some mem
        | none => extractMemoryLines restLines
      | none => extractMemoryLines restLines

/-- Function `extract_memory` from `launch_parser.rs`. -/
def extract_memory (content : Str) : Option Nat :=
  extractMemoryLines (rustLines content)

/-- Loop body sequence of `extract_cpu_cores`. -/
def extractCpuCoresLines : List Str → Option Nat
  | [] => none
  | line :: restLines =>
    if isCommentLine line then extractCpuCoresLines restLines
    else
      match findStr line (str "-smp ") with
      | some idx =>
        let rest := line.drop (idx + 5)
        let value := rest.takeWhile Char.isDigit
        match parseU32 value with
        | some cores => some cores
        | none => extractCpuCoresLines restLines
      | none => extractCpuCoresLines restLines

/-- Function `extract_cpu_cores` from `launch_parser.rs`. -/
def extract_cpu_cores (content : Str) : Option Nat :=
  extractCpuCoresLines (rustLines content)

/-- Loop body sequence of `extract_cpu_model`. -/
def extractCpuModelLines : List Str → Option Str
  | [] => none
  | line :: restLines =>
    if isCommentLine line then extractCpuModelLines restLines
    else
      match findStr line (str "-cpu ") with
      | some idx =>
        let rest := line.drop (idx + 5)
        let model := rest.takeWhile (fun c => !c.isWhitespace && c ≠ '\\')
        if model ≠ [] then some model else extractCpuModelLines restLines
      | none => extractCpuModelLines restLines

/-- Function `extract_cpu_model` from `launch_parser.rs`. -/
def extract_cpu_model (content : Str) : Option Str :=
  extractCpuModelLines (rustLines content)

/-- Loop body sequence of `extract_machine`: a `-M` match is tried before
a `-machine` match on each line. -/
def extractMachineLines : List Str → Option Str
  | [] => none
  | line :: restLines =>
    if isCommentLine line then extractMachineLines restLines
    else
      match findStr line (str "-M ") with
      | some idx =>
        let rest := line.drop (idx + 3)
        let machine := rest.takeWhile (fun c => !c.isWhitespace && c ≠ '\\')
        if machine ≠ [] then some machine
        else
          match findStr line (str "-machine ") with
          | some idx2 =>
            let rest2 := line.drop (idx2 + 9)
            let machine2 := rest2.takeWhile (fun c => !c.isWhitespace && c ≠ ',' && c ≠ '\\')
            if machine2 ≠ [] then some machine2 else extractMachineLines restLines
          | none => extractMachineLines restLines
      | none =>
        match findStr line (str "-machine ") with
        | some idx2 =>
          let rest2 := line.drop (idx2 + 9)
          let machine2 := rest2.takeWhile (fun c => !c.isWhitespace && c ≠ ',' && c ≠ '\\')
          if machine2 ≠ [] then some machine2 else extractMachineLines restLines
        | none => extractMachineLines restLines

/-- Function `extract_machine` from `launch_parser.rs`. -/
def extract_machine (content : Str) : Option Str :=
  extractMachineLines (rustLines content)

/-- Loop body of `extract_vga` on a single line: the value mapped through
the canonical table, or nothing when the line does not contribute. -/
def vgaLine (line : Str) : Option VgaType :=
  if isCommentLine line then none
  else
    match findStr line (str "-vga ") with
    | some idx =>
      let rest := line.drop (idx + 5)
      let vga := rest.takeWhile (fun c => !c.isWhitespace && c ≠ '\\')
      if vga ≠ [] then some (VgaType.from_str vga) else none
    | none => none

/-- Loop of `extract_vga`: the first contributing line returns. -/
def extractVgaLines : List Str → Option VgaType
  | [] => none
  | line :: restLines =>
    match vgaLine line with
    | some v => some v
    | none => extractVgaLines restLines

/-- Function `extract_vga` from `launch_parser.rs`. -/
def extract_vga (content : Str) : Option VgaType :=
  extractVgaLines (rustLines content)

/-- Function `extract_audio_devices` from `launch_parser.rs`: independent
whole-script containment checks, collected in a fixed order. -/
def extract_audio_devices (content : Str) : List AudioDevice :=
  (if containsStr content (str "sb16") || containsStr content (str "SB16") then
    [AudioDevice.sb16] else []) ++
  (if containsStr content (str "ac97") || containsStr content (str "AC97") then
    [AudioDevice.ac97] else []) ++
  (if containsStr content (str "intel-hda") || containsStr content (str "hda-duplex") then
    [AudioDevice.hda] else []) ++
  (if containsStr content (str "es1370") then [AudioDevice.es1370] else [])

/-- Function `extract_path_from_arg` from `launch_parser.rs`: a double-quoted,
single-quoted or bare path argument. -/
def extract_path_from_arg (arg : Str) : Option Str :=
  let trimmed := (arg.dropWhile Char.isWhitespace).reverse.dropWhile Char.isWhitespace |>.reverse
  match trimmed with
  | '"' :: rest =>
    match findStr rest ['"'] with
    | some e => some (rest.take e)
    | none => none
  | '\'' :: rest =>
    match findStr rest ['\''] with
    | some e => some (rest.take e)
    | none => none
  | _ =>
    let path := trimmed.takeWhile (fun c => !c.isWhitespace && c ≠ '\\')
    if path ≠ [] ∧ ¬ path.head? = some '-' then some path else none

/-- Function `extract_drive_file` from `launch_parser.rs`: the value of the first
`file=` attribute on the line. -/
def extract_drive_file (line : Str) : Option Str :=
  match findStr line (str "file=") with
  | some idx =>
    let rest := line.drop (idx + 5)
    match rest with
    | '"' :: inner =>
      match findStr inner ['"'] with
      | some e => some (inner.take e)
      | none => none
    | _ =>
      let path := rest.takeWhile (fun c => !c.isWhitespace && c ≠ ',' && c ≠ '\\')
      if path ≠ [] then some path else none
  | none => none

/-- Function `resolve_path` from `launch_parser.rs`: substitute the three
own-directory placeholders, then resolve relative to the VM directory. -/
def resolve_path (path : Str) (vm_dir : Str) : Str :=
  let path := replaceAll path (str "$DIR") vm_dir
  let path := replaceAll path (str "${DIR}") vm_dir
  let path := replaceAll path (str "$(dirname $0)") vm_dir
  if path.head? = some '/' then path else pathJoin vm_dir path

/-- Rust `Path::extension`: the part of the file name after its last dot,
none when there is no dot past the first character. -/
def pathExtension (p : Str) : Option Str :=
  let fn := (p.reverse.takeWhile (fun c => c ≠ '/')).reverse
  let extRev := fn.reverse.takeWhile (fun c => c ≠ '.')
  if extRev.length = fn.length ∨ extRev.length + 1 = fn.length then none
  else some extRev.reverse

/-- Function `guess_disk_format` from `launch_parser.rs`. -/
def guess_disk_format (path : Str) : DiskFormat :=
  match pathExtension path with
  | some ext => DiskFormat.from_extension ext
  | none => DiskFormat.raw

/-- One legacy fixed-slot disk flag (`-hda` .. `-hdd`) on a line, as read
by the inner loop of `extract_disks`. -/
def slotDisk (line vm_dir hd : Str) : List DiskConfig :=
  let pattern := '-' :: hd ++ [' ']
  match findStr line pattern with
  | some idx =>
    let rest := line.drop (idx + pattern.length)
    match extract_path_from_arg rest with
    | some p =>
      let full_path := resolve_path p vm_dir
      [{ path := full_path, format := guess_disk_format full_path, interface := str "ide" }]
    | none => []
  | none => []

/-- The four legacy slots of a line, in the source's fixed slot order. -/
def legacyDisksLine (line vm_dir : Str) : List DiskConfig :=
  ([str "hda", str "hdb", str "hdc", str "hdd"]).flatMap (slotDisk line vm_dir)

/-- The modern `-drive file=` disk of a line, as read by `extract_disks`. -/
def driveDisksLine (line vm_dir : Str) : List DiskConfig :=
  if containsStr line (str "-drive") && containsStr line (str "file=") then
    match extract_drive_file line with
    | some p =>
      let full_path := resolve_path p vm_dir
      let interface :=
        if containsStr line (str "if=virtio") then str "virtio"
        else if containsStr line (str "if=scsi") then str "scsi"
        else str "ide"
      [{ path := full_path, format := guess_disk_format full_path, interface := interface }]
    | none => []
  else []

/-- Accumulator loop of `extract_disks` over the script lines. -/
def extractDisksGo (vm_dir : Str) : List Str → List DiskConfig → List DiskConfig
  | [], acc => acc
  | line :: restLines, acc =>
    if isCommentLine line then extractDisksGo vm_dir restLines acc
    else extractDisksGo vm_dir restLines
      (acc ++ legacyDisksLine line vm_dir ++ driveDisksLine line vm_dir)

/-- Function `extract_disks` from `launch_parser.rs`. -/
def extract_disks (content : Str) (vm_dir : Str) : List DiskConfig :=
  extractDisksGo vm_dir (rustLines content) []

/-- One pass of the `extract_network` loop body over a single line,
updating the accumulated configuration and the has-network flag. -/
def netStep (st : NetworkConfig × Bool) (line : Str) : NetworkConfig × Bool :=
  if isCommentLine line then st
  else
    let st1 :=
      if containsStr line (str "-net nic") || containsStr line (str "-netdev") ||
          containsStr line (str "-nic") then
        let cfg := st.1
        let cfg :=
          if containsStr line (str "model=virtio") then { cfg with model := str "virtio-net" }
          else if containsStr line (str "model=e1000") then { cfg with model := str "e1000" }
          else if containsStr line (str "model=rtl8139") then { cfg with model := str "rtl8139" }
          else cfg
        (cfg, true)
      else st
    let st2 :=
      if containsStr line (str "-net user") || containsStr line (str "user,") then
        ({ st1.1 with user_net := true }, st1.2)
      else st1
    if containsStr line (str "-net bridge") || containsStr line (str "bridge,") then
      let bridge :=
        match findStr line (str "br=") with
        | some idx =>
          some ((line.drop (idx + 3)).takeWhile
            (fun c => c.isAlphanum || c = '-' || c = '_'))
        | none => st2.1.bridge
      ({ st2.1 with user_net := false, bridge := bridge }, st2.2)
    else st2

/-- Function `extract_network` from `launch_parser.rs`. -/
def extract_network (content : Str) : Option NetworkConfig :=
  let st := (rustLines content).foldl netStep (NetworkConfig.default, false)
  if st.2 || containsStr content (str "-net") || containsStr content (str "-nic") then
    some st.1
  else none

/-- Function `extract_extra_args` from `launch_parser.rs`: the fixed list of
recognized-but-unmodeled flags, captured verbatim. -/
def extract_extra_args (content : Str) : List Str :=
  (if containsStr content (str "-display gtk") then [str "-display gtk"]
   else if containsStr content (str "-display sdl") then [str "-display sdl"]
   else if containsStr content (str "-display vnc") then [str "-display vnc"]
   else []) ++
  (if containsStr content (str "-usb") then [str "-usb"] else []) ++
  (if containsStr content (str "-rtc base=localtime") then [str "-rtc base=localtime"] else [])

/-- The hardware-acceleration feature check of `parse_launch_script`. -/
def kvmFlag (content : Str) : Bool :=
  containsStr content (str "-enable-kvm") || containsStr content (str "-accel kvm")

/-- The firmware-boot feature check of `parse_launch_script`; note the
conjunctive second arm. -/
def uefiFlag (content : Str) : Bool :=
  containsStr content (str "OVMF") ||
    (containsStr content (str "-bios") && containsStr content (str "efi"))

/-- The TPM feature check of `parse_launch_script`. -/
def tpmFlag (content : Str) : Bool :=
  containsStr content (str "-tpmdev") || containsStr content (str "swtpm")

/-- Function `parse_launch_script` from `launch_parser.rs`: builds the config from
the default by the per-field extractors; its only exit is `Ok`. -/
def parse_launch_script (script_path content : Str) : Except Str QemuConfig :=
  let config := { QemuConfig.default with raw_script := content }
  let vm_dir := parentDir script_path
  let config :=
    match extract_emulator content with
    | some e => { config with emulator := e }
    | none => config
  let config :=
    match extract_memory content with
    | some mem => { config with memory_mb := mem }
    | none => config
  let config :=
    match extract_cpu_cores content with
    | some cores => { config with cpu_cores := cores }
    | none => config
  let config := { config with cpu_model := extract_cpu_model content }
  let config := { config with machine := extract_machine content }
  let config :=
    match extract_vga content with
    | some v => { config with vga := v }
    | none => config
  let config := { config with audio_devices := extract_audio_devices content }
  let config := { config with enable_kvm := kvmFlag content }
  let config := { config with uefi := uefiFlag content }
  let config := { config with tpm := tpmFlag content }
  let config := { config with disks := extract_disks content vm_dir }
  let config := { config with network := extract_network content }
  let config := { config with extra_args := extract_extra_args content }
  Except.ok config

/-- The configuration produced by `parse_launch_script` (total, since the
parser's only exit is `Ok`). -/
def parsedConfig (script_path content : Str) : QemuConfig :=
  match parse_launch_script script_path content with
  | .ok cfg => cfg
  | .error _ => QemuConfig.default

/-- Structure `DiscoveredVm` from `discovery.rs`. -/
structure DiscoveredVm where
  id : Str
  path : Str
  launch_script : Str
  config : QemuConfig
  parse_success : Bool
  parse_error : Option Str
  deriving DecidableEq, Repr

/-- Method `DiscoveredVm::display_name` from `discovery.rs`: hyphens become
spaces, then each whitespace-separated word gets its first character
ASCII-uppercased. -/
def display_name (id : Str) : Str :=
  List.intercalate [' ']
    ((splitWs (id.map (fun c => if c = '-' then ' ' else c))).map capitalizeFirst)

/-- Formalisation of the spec sentence describing the display name, for
comparison with the source's `display_name`: identifier with separator
characters (hyphens and underscores) replaced by spaces, each word
capitalized. -/
def specDisplayName (id : Str) : Str :=
  List.intercalate [' ']
    ((splitWs (id.map (fun c => if c = '-' ∨ c = '_' then ' ' else c))).map capitalizeFirst)

/-- One directory entry of the library root that discovery accepted: a
subdirectory containing a launch script, together with the result of
reading that script (`none` models a failed read). -/
structure VmEntry where
  id : Str
  path : Str
  readResult : Option Str
  deriving DecidableEq, Repr

/-- The match in `discover_vms` that attaches a parse result to the VM
record: an `Ok` keeps the parsed config, an `Err` keeps a default config
carrying the raw script and the error text. -/
def attachParseResult (e : VmEntry) (script_content : Str)
    (r : Except Str QemuConfig) : DiscoveredVm :=
  let launch_script := pathJoin e.path (str "launch.sh")
  match r with
  | .ok cfg =>
    { id := e.id, path := e.path, launch_script := launch_script,
      config := cfg, parse_success := true, parse_error := none }
  | .error err =>
    { id := e.id, path := e.path, launch_script := launch_script,
      config := { QemuConfig.default with raw_script := script_content },
      parse_success := false, parse_error := some err }

/-- The per-entry body of the `discover_vms` loop: read the script
(`unwrap_or_default` turns a failed read into empty content), parse it,
attach the result. -/
def mkDiscoveredVm (e : VmEntry) : DiscoveredVm :=
  let script_content := e.readResult.getD []
  attachParseResult e script_content
    (parse_launch_script (pathJoin e.path (str "launch.sh")) script_content)

/-- The comparator of the final sort in `discover_vms`. -/
def vmLe (a b : DiscoveredVm) : Bool :=
  decide (display_name a.id ≤ display_name b.id)

/-- Function `discover_vms` from `discovery.rs`, over the entries the filesystem
scan accepted: one record per entry, sorted by display name. -/
def discover_vms (entries : List VmEntry) : List DiscoveredVm :=
  (entries.map mkDiscoveredVm).mergeSort vmLe

/-- A port-forward rule (protocol, host port, guest port). -/
structure PortForward where
  protocol : Str
  host_port : Nat
  guest_port : Nat
  deriving DecidableEq, Repr

/-- A requested network field change handed to the synthesizer. -/
structure NetChange where
  model : Str
  backend : Str
  bridge_name : Option Str
  port_forwards : List PortForward
  deriving DecidableEq, Repr

/-- Decimal rendering of a port number. -/
def natToStr (n : Nat) : Str := (Nat.repr n).toList

/-- Modelled from the spec: the user-mode forwarding syntax for one
port-forward rule. -/
def pfSyntax (pf : PortForward) : Str :=
  str ",hostfwd=" ++ pf.protocol ++ str "::" ++ natToStr pf.host_port ++
    str "-:" ++ natToStr pf.guest_port

/-- Modelled from the spec: the synthesized network clause, fully
regenerated for the selected backend variant, with the adapter-model
token and the serialized port-forward rules. -/
def synthNetClause (ch : NetChange) : Str :=
  if ch.backend = str "user" then
    str "-nic user,model=" ++ ch.model ++ (ch.port_forwards.map pfSyntax).flatten
  else if ch.backend = str "bridge" then
    str "-nic bridge,br=" ++ (ch.bridge_name.getD (str "qemubr0")) ++
      str ",model=" ++ ch.model
  else
    str "-nic " ++ ch.backend ++ str ",model=" ++ ch.model

/-- A line contributing an existing network clause, located with the same
token rules as `extract_network`. -/
def isNetLine (l : Str) : Bool :=
  !isCommentLine l &&
    (containsStr l (str "-net nic") || containsStr l (str "-netdev") ||
      containsStr l (str "-nic"))

/-- A line invoking one of the six recognized emulator binaries. -/
def isEmuLine (l : Str) : Bool :=
  emulatorNames.any (containsStr l)

/-- Modelled from the spec: `update_network_in_script` (`vm/create.rs`,
not under src/). It locates the existing network clause with the
extractor's token rules and regenerates it in place; when no clause
exists, the synthesized clause is inserted immediately before the line
invoking the emulator; when neither anchor exists, the rewrite fails. -/
def update_network_in_script (script : Str) (ch : NetChange) : Option Str :=
  let ls := splitOnNl script
  if ls.any isNetLine then
    some (nlJoin (ls.set (ls.findIdx isNetLine) (synthNetClause ch)))
  else if ls.any isEmuLine then
    let k := ls.findIdx isEmuLine
    some (nlJoin (ls.take k ++ synthNetClause ch :: ls.drop k))
  else none

theorem containsStr_infix_iff (s p : Str) : containsStr s p = true ↔ p <:+: s := by
  induction s with
  | nil =>
    simp [containsStr, List.isEmpty_iff, List.infix_nil]
  | cons c cs ih =>
    simp [containsStr, List.infix_cons_iff, ih, List.isPrefixOf_iff_prefix]

theorem splitOnNl_ne_nil (c : Str) : splitOnNl c ≠ [] := by
  cases c with
  | nil => simp [splitOnNl]
  | cons ch cs =>
    simp only [splitOnNl]
    split
    · simp
    · split <;> simp

theorem splitOnNl_head_pref : ∀ (cs L : Str) (Ls : List Str),
    splitOnNl cs = L :: Ls → L <+: cs := by
  intro cs
  induction cs with
  | nil =>
    intro L Ls h
    simp only [splitOnNl] at h
    cases h
    exact List.nil_prefix
  | cons ch cs ih =>
    intro L Ls h
    simp only [splitOnNl] at h
    cases hcs : splitOnNl cs with
    | nil => exact absurd hcs (splitOnNl_ne_nil cs)
    | cons L' Ls' =>
      rw [hcs] at h
      by_cases hnl : ch = '\n'
      · simp [hnl] at h
        simp [h.1]
      · simp [hnl] at h
        rw [← h.1]
        exact List.cons_prefix_cons.mpr ⟨rfl, ih L' Ls' hcs⟩

theorem splitOnNl_decomp : ∀ (cs L : Str) (Ls : List Str),
    splitOnNl cs = L :: Ls →
    (cs = L ∧ Ls = []) ∨ ∃ rest, cs = L ++ '\n' :: rest ∧ splitOnNl rest = Ls := by
  intro cs
  induction cs with
  | nil =>
    intro L Ls h
    simp only [splitOnNl] at h
    cases h
    exact Or.inl ⟨rfl, rfl⟩
  | cons ch cs ih =>
    intro L Ls h
    simp only [splitOnNl] at h
    cases hcs : splitOnNl cs with
    | nil => exact absurd hcs (splitOnNl_ne_nil cs)
    | cons L' Ls' =>
      rw [hcs] at h
      by_cases hnl : ch = '\n'
      · simp [hnl] at h
        refine Or.inr ⟨cs, ?_, ?_⟩
        · rw [h.1, hnl]
          rfl
        · rw [hcs, h.2]
      · simp [hnl] at h
        rcases ih L' Ls' hcs with ⟨h1, h2⟩ | ⟨rest, h1, h2⟩
        · refine Or.inl ⟨?_, ?_⟩
          · rw [← h.1, h1]
          · rw [← h.2, h2]
        · refine Or.inr ⟨rest, ?_, ?_⟩
          · rw [← h.1, h1]
            rfl
          · rw [← h.2, h2]

theorem infix_of_mem_splitOnNl : ∀ (c l : Str), l ∈ splitOnNl c → l <:+: c := by
  intro c
  induction c with
  | nil =>
    intro l hl
    simp [splitOnNl] at hl
    simp [hl]
  | cons ch cs ih =>
    intro l hl
    simp only [splitOnNl] at hl
    cases hcs : splitOnNl cs with
    | nil => exact absurd hcs (splitOnNl_ne_nil cs)
    | cons L' Ls' =>
      rw [hcs] at hl
      by_cases hnl : ch = '\n'
      · simp [hnl] at hl
        rcases hl with hl | hl | hl
        · simp [hl]
        · exact List.infix_cons (ih l (by rw [hcs, hl]; exact List.mem_cons_self _ _))
        · exact List.infix_cons (ih l (by rw [hcs]; exact List.mem_cons_of_mem _ hl))
      · simp [hnl] at hl
        rcases hl with hl | hl
        · rw [hl]
          exact (List.cons_prefix_cons.mpr ⟨rfl, splitOnNl_head_pref cs L' Ls' hcs⟩).isInfix
        · exact List.infix_cons (ih l (by rw [hcs]; exact List.mem_cons_of_mem _ hl))

theorem stripCr_pref (l : Str) : stripCr l <+: l := by
  unfold stripCr
  cases h : l.getLast? with
  | none => exact List.prefix_refl l
  | some c =>
    by_cases hc : c = '\r'
    · simp only [hc, if_pos rfl]
      exact List.dropLast_prefix l
    · simp only [if_neg hc]
      exact List.prefix_refl l

theorem infix_of_mem_rustLines (c l : Str) (h : l ∈ rustLines c) : l <:+: c := by
  unfold rustLines at h
  simp only [List.mem_map] at h
  obtain ⟨l', hl', rfl⟩ := h
  have hmem : l' ∈ splitOnNl c := by
    by_cases hlast : (splitOnNl c).getLast? = some []
    · simp only [if_pos hlast] at hl'
      exact List.dropLast_subset _ hl'
    · simpa only [if_neg hlast] using hl'
  exact List.IsPrefix.isInfix (stripCr_pref l') |>.trans (infix_of_mem_splitOnNl c l' hmem)

theorem splitOnNl_no_nl (c : Str) (h : '\n' ∉ c) : splitOnNl c = [c] := by
  induction c with
  | nil => rfl
  | cons ch cs ih =>
    have hch : ch ≠ '\n' := fun hc => h (by simp [hc])
    have hcs : '\n' ∉ cs := fun hc => h (List.mem_cons_of_mem _ hc)
    simp only [splitOnNl, ih hcs, if_neg hch]

theorem stripCr_no_cr (l : Str) (h : '\r' ∉ l) : stripCr l = l := by
  unfold stripCr
  cases hl : l.getLast? with
  | none => rfl
  | some c =>
    have : c ∈ l := List.mem_of_getLast?_eq_some hl
    have hc : c ≠ '\r' := fun he => h (he ▸ this)
    simp only [if_neg hc]

theorem rustLines_single (c : Str) (hne : c ≠ []) (hn : '\n' ∉ c) (hr : '\r' ∉ c) :
    rustLines c = [c] := by
  have hcs : ¬ (([c] : List Str).getLast? = some ([] : Str)) := by simp [hne]
  simp only [rustLines, splitOnNl_no_nl c hn, if_neg hcs, List.map_cons, List.map_nil,
    stripCr_no_cr c hr]

theorem pref_of_pref_append {a : Char} :
    ∀ (x : Str) (p y : Str), a ∉ p → p <+: x ++ a :: y → p <+: x := by
  intro x
  induction x with
  | nil =>
    intro p y ha h
    cases p with
    | nil => exact List.nil_prefix
    | cons b p' =>
      rw [List.nil_append, List.cons_prefix_cons] at h
      exact absurd (h.1 ▸ List.mem_cons_self a p') ha
  | cons b x' ih =>
    intro p y ha h
    cases p with
    | nil => exact List.nil_prefix
    | cons q p' =>
      rw [List.cons_append, List.cons_prefix_cons] at h
      have hp' : p' <+: x' := ih p' y (fun hm => ha (List.mem_cons_of_mem q hm)) h.2
      exact List.cons_prefix_cons.mpr ⟨h.1, hp'⟩

theorem infix_drop_head {a : Char} {p s : Str}
    (hne : p ≠ []) (ha : a ∉ p) (h : p <:+: a :: s) : p <:+: s := by
  rcases List.infix_cons_iff.mp h with hpre | hinf
  · cases p with
    | nil => exact absurd rfl hne
    | cons q p' =>
      rw [List.cons_prefix_cons] at hpre
      exact absurd (hpre.1 ▸ List.mem_cons_self a p') ha
  · exact hinf

theorem infix_drop_last {a : Char} {p s : Str}
    (hne : p ≠ []) (ha : a ∉ p) (h : p <:+: s ++ [a]) : p <:+: s := by
  have h1 : p.reverse <:+: a :: s.reverse := by
    have := List.reverse_infix.mpr h
    simpa using this
  have h2 : p.reverse <:+: s.reverse :=
    infix_drop_head (by simpa using hne) (by simpa using ha) h1
  have := List.reverse_infix.mpr h2
  simpa using this

theorem splitOnNl_cons_nl (cs : Str) : splitOnNl ('\n' :: cs) = [] :: splitOnNl cs := by
  simp only [splitOnNl]
  cases h : splitOnNl cs with
  | nil => exact absurd h (splitOnNl_ne_nil cs)
  | cons L Ls => simp

theorem splitOnNl_cons_of_ne {ch : Char} {cs L : Str} {Ls : List Str}
    (hch : ch ≠ '\n') (h : splitOnNl cs = L :: Ls) :
    splitOnNl (ch :: cs) = (ch :: L) :: Ls := by
  simp only [splitOnNl, h, if_neg hch]

theorem infix_exists_seg : ∀ (c p : Str), p ≠ [] → '\n' ∉ p → p <:+: c →
    ∃ l ∈ splitOnNl c, p <:+: l := by
  intro c
  induction c with
  | nil =>
    intro p hne _ h
    rw [List.infix_nil] at h
    exact absurd h hne
  | cons ch cs ih =>
    intro p hne hn h
    by_cases hch : ch = '\n'
    · subst hch
      have h' : p <:+: cs := infix_drop_head hne hn h
      obtain ⟨l, hl, hp⟩ := ih p hne hn h'
      exact ⟨l, by rw [splitOnNl_cons_nl]; exact List.mem_cons_of_mem _ hl, hp⟩
    · cases hLS : splitOnNl cs with
      | nil => exact absurd hLS (splitOnNl_ne_nil cs)
      | cons L Ls =>
        rw [splitOnNl_cons_of_ne hch hLS]
        rcases List.infix_cons_iff.mp h with hpre | hinf
        · rcases splitOnNl_decomp cs L Ls hLS with ⟨hcsL, _⟩ | ⟨rest, hcsL, _⟩
          · rw [hcsL] at hpre
            exact ⟨ch :: L, List.mem_cons_self _ _, hpre.isInfix⟩
          · have : p <+: (ch :: L) ++ '\n' :: rest := by
              rw [hcsL] at hpre
              simpa using hpre
            exact ⟨ch :: L, List.mem_cons_self _ _,
              (pref_of_pref_append (ch :: L) p rest hn this).isInfix⟩
        · obtain ⟨l, hl, hp⟩ := ih p hne hn hinf
          rw [hLS] at hl
          rcases List.mem_cons.mp hl with hl | hl
          · subst hl
            exact ⟨ch :: l, List.mem_cons_self _ _,
              hp.trans (List.suffix_cons ch l).isInfix⟩
          · exact ⟨l, List.mem_cons_of_mem _ hl, hp⟩

theorem infix_stripCr {p l : Str} (hne : p ≠ []) (hr : '\r' ∉ p) (hp : p <:+: l) :
    p <:+: stripCr l := by
  unfold stripCr
  cases h : l.getLast? with
  | none => exact hp
  | some c =>
    by_cases hc : c = '\r'
    · simp only [hc, if_pos rfl]
      have hl : l ≠ [] := by
        intro he
        rw [he] at h
        simp at h
      have hdec : l.dropLast ++ [l.getLast hl] = l := List.dropLast_concat_getLast hl
      have hgl : l.getLast hl = '\r' := by
        have := List.getLast?_eq_getLast l hl
        rw [h, hc] at this
        exact (Option.some_injective _ this).symm
      rw [hgl] at hdec
      have hp' : p <:+: l.dropLast ++ ['\r'] := by rw [hdec]; exact hp
      exact infix_drop_last hne hr hp'
    · simp only [if_neg hc]
      exact hp

theorem exists_line_of_containsStr {c p : Str}
    (hne : p ≠ []) (hn : '\n' ∉ p) (hr : '\r' ∉ p) (h : containsStr c p = true) :
    ∃ l ∈ rustLines c, containsStr l p = true := by
  have hinf : p <:+: c := (containsStr_infix_iff c p).mp h
  obtain ⟨seg, hmem, hpseg⟩ := infix_exists_seg c p hne hn hinf
  have hsegne : seg ≠ [] := by
    intro he
    rw [he, List.infix_nil] at hpseg
    exact hne hpseg
  refine ⟨stripCr seg, ?_, (containsStr_infix_iff _ _).mpr (infix_stripCr hne hr hpseg)⟩
  unfold rustLines
  simp only [List.mem_map]
  refine ⟨seg, ?_, rfl⟩
  by_cases hlast : (splitOnNl c).getLast? = some []
  · simp only [if_pos hlast]
    have hpartsne : splitOnNl c ≠ [] := splitOnNl_ne_nil c
    have hdec : (splitOnNl c).dropLast ++ [(splitOnNl c).getLast hpartsne] = splitOnNl c :=
      List.dropLast_concat_getLast hpartsne
    have hgl : (splitOnNl c).getLast hpartsne = [] := by
      have := List.getLast?_eq_getLast (splitOnNl c) hpartsne
      rw [hlast] at this
      exact (Option.some_injective _ this).symm
    rw [hgl] at hdec
    rw [← hdec] at hmem
    rcases List.mem_append.mp hmem with hmem | hmem
    · exact hmem
    · simp at hmem
      exact absurd hmem hsegne
  · simp only [if_neg hlast]
    exact hmem

theorem containsStr_lines_iff (c p : Str)
    (hne : p ≠ []) (hn : '\n' ∉ p) (hr : '\r' ∉ p) :
    containsStr c p = true ↔ ∃ l ∈ rustLines c, containsStr l p = true := by
  constructor
  · exact exists_line_of_containsStr hne hn hr
  · rintro ⟨l, hl, hp⟩
    exact (containsStr_infix_iff c p).mpr
      (((containsStr_infix_iff l p).mp hp).trans (infix_of_mem_rustLines c l hl))

theorem nlJoin_splitOnNl : ∀ s : Str, nlJoin (splitOnNl s) = s := by
  intro s
  induction s with
  | nil => rfl
  | cons c cs ih =>
    cases hLS : splitOnNl cs with
    | nil => exact absurd hLS (splitOnNl_ne_nil cs)
    | cons L Ls =>
      rw [hLS] at ih
      by_cases hc : c = '\n'
      · subst hc
        rw [splitOnNl_cons_nl, hLS]
        show [] ++ '\n' :: nlJoin (L :: Ls) = '\n' :: cs
        rw [List.nil_append, ih]
      · rw [splitOnNl_cons_of_ne hc hLS]
        cases Ls with
        | nil =>
          show c :: L = c :: cs
          rw [show nlJoin [L] = L from rfl] at ih
          rw [ih]
        | cons L2 Ls2 =>
          show (c :: L) ++ '\n' :: nlJoin (L2 :: Ls2) = c :: cs
          rw [List.cons_append]
          have : L ++ '\n' :: nlJoin (L2 :: Ls2) = cs := ih
          rw [this]

theorem containsStr_of_line (c l p : Str)
    (hl : l ∈ rustLines c) (hp : containsStr l p = true) : containsStr c p = true :=
  (containsStr_infix_iff c p).mpr
    (((containsStr_infix_iff l p).mp hp).trans (infix_of_mem_rustLines c l hl))

theorem containsStr_mono (c p q : Str) (hq : q <+: p) (hp : containsStr c p = true) :
    containsStr c q = true :=
  (containsStr_infix_iff c q).mpr (hq.isInfix.trans ((containsStr_infix_iff c p).mp hp))

theorem findStr_of_pref (s p : Str) (h : p.isPrefixOf s = true) : findStr s p = some 0 := by
  cases s with
  | nil =>
    have : p = [] := by
      rw [ List.isPrefixOf_iff_prefix] at h
      exact List.prefix_nil.mp h
    simp [findStr, this]
  | cons c cs => simp [findStr, h]

theorem takeWhile_all_append (P : Char → Bool) :
    ∀ (d s : Str), (∀ c ∈ d, P c = true) → (∀ ch, s.head? = some ch → P ch = false) →
    (d ++ s).takeWhile P = d := by
  intro d
  induction d with
  | nil =>
    intro s _ hs
    cases s with
    | nil => rfl
    | cons ch t =>
      rw [List.nil_append, List.takeWhile_cons, hs ch rfl]
      rfl
  | cons c d' ih =>
    intro s hd hs
    rw [List.cons_append, List.takeWhile_cons, hd c (List.mem_cons_self _ _)]
    simp [ih s (fun x hx => hd x (List.mem_cons_of_mem _ hx)) hs]

theorem netStep_snd (st : NetworkConfig × Bool) (l : Str) :
    (netStep st l).2 = (st.2 || (!isCommentLine l &&
      (containsStr l (str "-net nic") || containsStr l (str "-netdev") ||
        containsStr l (str "-nic")))) := by
  rcases st with ⟨cfg, b⟩
  by_cases h0 : isCommentLine l
  · simp [netStep, h0]
  · by_cases h1 : (containsStr l (str "-net nic") || containsStr l (str "-netdev") ||
        containsStr l (str "-nic")) = true
    · simp only [netStep, if_neg h0, if_pos h1, h1, Bool.not_true, Bool.true_and]
      split_ifs <;> simp [h0]
    · have hf : (containsStr l (str "-net nic") || containsStr l (str "-netdev") ||
          containsStr l (str "-nic")) = false := Bool.eq_false_iff.mpr h1
      simp only [netStep, if_neg h0, if_neg h1, hf, Bool.and_false, Bool.or_false]
      split_ifs <;> simp_all

theorem foldl_netStep_flag : ∀ (ls : List Str) (st : NetworkConfig × Bool),
    (ls.foldl netStep st).2 = true →
    st.2 = true ∨ ∃ l ∈ ls, (containsStr l (str "-net nic") ||
      containsStr l (str "-netdev") || containsStr l (str "-nic")) = true := by
  intro ls
  induction ls with
  | nil =>
    intro st h
    exact Or.inl h
  | cons l ls ih =>
    intro st h
    rw [List.foldl_cons] at h
    rcases ih (netStep st l) h with h2 | ⟨l', hl', ht⟩
    · rw [netStep_snd] at h2
      simp only [Bool.or_eq_true, Bool.and_eq_true] at h2
      rcases h2 with hb | hb
      · exact Or.inl hb
      · exact Or.inr ⟨l, List.mem_cons_self _ _, by simp [hb.2]⟩
    · exact Or.inr ⟨l', List.mem_cons_of_mem _ hl', ht⟩

/-- Claim C10: `parse_launch_script` has no non-Ok return, so every
discovered VM has `parse_success = true` and `parse_error = none`; a
failed script read is swallowed and treated as empty content. -/
theorem parse_never_fails (script_path content : Str) (e : VmEntry) :
    (parse_launch_script script_path content).isOk = true ∧
    (mkDiscoveredVm e).parse_success = true ∧
    (mkDiscoveredVm e).parse_error = none ∧
    mkDiscoveredVm { e with readResult := none } =
      mkDiscoveredVm { e with readResult := some [] } := by
  refine ⟨rfl, ?_, ?_, rfl⟩
  · cases e with
    | mk id path readResult => rfl
  · cases e with
    | mk id path readResult => rfl

theorem parse_ok_eq (p c : Str) :
    parse_launch_script p c = Except.ok (parsedConfig p c) := rfl

theorem parsedConfig_raw (p c : Str) : (parsedConfig p c).raw_script = c := by
  unfold parsedConfig parse_launch_script
  cases extract_emulator c <;> cases extract_memory c <;>
    cases extract_cpu_cores c <;> cases extract_vga c <;> rfl

/-- Claim C7: on the success arm and on the failure arm of the discovery
match alike, the attached config's `raw_script` equals the script content
that was read. -/
theorem raw_script_retained (script_path content msg : Str) (e : VmEntry) :
    (parsedConfig script_path content).raw_script = content ∧
    (attachParseResult e content
      (parse_launch_script script_path content)).config.raw_script = content ∧
    (attachParseResult e content (Except.error msg)).config.raw_script = content := by
  refine ⟨parsedConfig_raw script_path content, ?_, rfl⟩
  rw [parse_ok_eq script_path content]
  show (parsedConfig script_path content).raw_script = content
  exact parsedConfig_raw script_path content

/-- Claim C6: at the failing input (a VM directory whose launch script
exists but cannot be read), discovery reports the VM as successfully
parsed with no error and empty retained content, instead of
`success = false` with a reason as the claim requires. -/
theorem unreadable_script_reported_parsed :
    (mkDiscoveredVm ⟨ str "vm1", str "/lib/vm1", none⟩).parse_success = true ∧
    (mkDiscoveredVm ⟨ str "vm1", str "/lib/vm1", none⟩).parse_error = none ∧
    (mkDiscoveredVm ⟨ str "vm1", str "/lib/vm1", none⟩).config.raw_script = [] :=
  ⟨rfl, rfl, rfl⟩

/-- Claim C3 counterexample: the script `-net user` contains none of the
three network-introducing flags, yet extraction yields a network
configuration rather than none. -/
theorem net_without_flags_some :
    containsStr (str "-net user") (str "-net nic") = false ∧
    containsStr (str "-net user") (str "-netdev") = false ∧
    containsStr (str "-net user") (str "-nic") = false ∧
    (extract_network (str "-net user")).isSome = true := by decide

/-- Claim C3 amended: extraction yields no network configuration exactly
when the script text contains neither `-net` nor `-nic` as a substring
anywhere (comment lines included); presence of any of the three
network-introducing flags on a non-comment line therefore still yields a
configuration, but so does any other occurrence of these fragments. -/
theorem extract_network_none_iff (c : Str) :
    extract_network c = none ↔
      (containsStr c (str "-net") = false ∧ containsStr c (str "-nic") = false) := by
  unfold extract_network
  constructor
  · intro h
    by_cases hb : (((rustLines c).foldl netStep (NetworkConfig.default, false)).2 ||
        containsStr c (str "-net") || containsStr c (str "-nic")) = true
    · rw [if_pos hb] at h
      exact absurd h (by simp)
    · have hf := Bool.eq_false_iff.mpr hb
      simp only [Bool.or_eq_false_iff] at hf
      exact ⟨hf.1.2, hf.2⟩
  · rintro ⟨h1, h2⟩
    have hflag : ((rustLines c).foldl netStep (NetworkConfig.default, false)).2 = false := by
      by_contra hcon
      rw [Bool.not_eq_false] at hcon
      rcases foldl_netStep_flag (rustLines c) (NetworkConfig.default, false) hcon with
        hst | ⟨l, hl, ht⟩
      · exact absurd hst (by simp)
      · simp only [Bool.or_eq_true] at ht
        rcases ht with (ht | ht) | ht
        · have hc : containsStr c (str "-net nic") = true := containsStr_of_line c l _ hl ht
          have : containsStr c (str "-net") = true :=
            containsStr_mono c _ _ (by decide) hc
          rw [this] at h1
          exact absurd h1 (by simp)
        · have hc : containsStr c (str "-netdev") = true := containsStr_of_line c l _ hl ht
          have : containsStr c (str "-net") = true :=
            containsStr_mono c _ _ (by decide) hc
          rw [this] at h1
          exact absurd h1 (by simp)
        · have hc : containsStr c (str "-nic") = true := containsStr_of_line c l _ hl ht
          rw [hc] at h2
          exact absurd h2 (by simp)
    simp [hflag, h1, h2]

theorem extractVgaLines_append_none (pre : List Str)
    (hpre : ∀ p ∈ pre, vgaLine p = none) :
    ∀ rest, extractVgaLines (pre ++ rest) = extractVgaLines rest := by
  induction pre with
  | nil => intro rest; rfl
  | cons p pre ih =>
    intro rest
    rw [List.cons_append]
    show (match vgaLine p with
      | some v => some v
      | none => extractVgaLines (pre ++ rest)) = extractVgaLines rest
    rw [hpre p (List.mem_cons_self _ _)]
    exact ih (fun q hq => hpre q (List.mem_cons_of_mem _ hq)) rest

/-- Claim C2 counterexample: a script with two graphics-adapter flags
resolves to the value of the first, not the second. -/
theorem vga_first_wins :
    extract_vga (str "-vga cirrus\n-vga std") = some VgaType.cirrus ∧
    VgaType.from_str (str "std") = VgaType.std ∧
    some VgaType.cirrus ≠ some (VgaType.from_str (str "std")) := by decide

/-- Claim C2 amended: graphics-adapter extraction is first-match-wins:
the first non-comment line carrying the flag with a nonempty token
determines the result, and the lines after it are ignored entirely. -/
theorem extract_vga_first_match (pre post post' : List Str) (l : Str) (v : VgaType)
    (hpre : ∀ p ∈ pre, vgaLine p = none) (hl : vgaLine l = some v) :
    extractVgaLines (pre ++ l :: post) = some v ∧
    extractVgaLines (pre ++ l :: post) = extractVgaLines (pre ++ l :: post') ∧
    ∀ c, rustLines c = pre ++ l :: post → extract_vga c = some v := by
  have key : ∀ post₀, extractVgaLines (pre ++ l :: post₀) = some v := by
    intro post₀
    rw [extractVgaLines_append_none pre hpre]
    show (match vgaLine l with
      | some v => some v
      | none => extractVgaLines post₀) = some v
    rw [hl]
  refine ⟨key post, by rw [key post, key post'], ?_⟩
  intro c hc
  unfold extract_vga
  rw [hc]
  exact key post

/-- Witness for the amended C2 theorem at a concrete two-flag script. -/
theorem extract_vga_first_match_witness :
    extract_vga (str "-vga cirrus\n-vga std") = some VgaType.cirrus := by
  have h := extract_vga_first_match [] [str "-vga std"] [] (str "-vga cirrus")
    VgaType.cirrus (by intro p hp; simp at hp) (by decide)
  exact h.2.2 (str "-vga cirrus\n-vga std") (by decide)

theorem containsChar_append (a : Char) (d s : Str) :
    (d ++ s).contains a = (d.contains a || s.contains a) := by
  induction d with
  | nil => simp
  | cons c t ih => simp [List.contains_cons, ih, Bool.or_assoc]

theorem digits_no_G (d : Str) (hd : ∀ ch ∈ d, ch.isDigit = true) :
    d.contains 'G' = false := by
  induction d with
  | nil => rfl
  | cons c t ih =>
    have hc := hd c (List.mem_cons_self _ _)
    have ht := ih (fun x hx => hd x (List.mem_cons_of_mem _ hx))
    by_cases hG : c = 'G'
    · rw [hG] at hc
      exact absurd hc (by decide)
    · simp only [List.contains_cons, ht, Bool.or_false]
      exact beq_eq_false_iff_ne.mpr (fun he => hG he.symm)

theorem isCommentLine_dash (t : Str) : isCommentLine ('-' :: t) = false := rfl

/-- Claim C1 counterexample: in `-m 100 G` the digit token `100` carries
no gigabyte suffix and is not below 64, so the claim requires 100, but
the extractor scales it because a `G` appears later on the line. -/
theorem memory_g_anywhere :
    extract_memory (str "-m 100 G") = some 102400 ∧ (102400 : Nat) ≠ 100 := by
  constructor
  · decide
  · decide

/-- Claim C1 amended: for a line consisting of the memory flag, a digit
run parsing to `m`, and a remainder `s` that does not start with a digit,
extraction returns `m * 1024` reduced modulo `2 ^ 32` (the wrapping u32
multiply) exactly when the character `G` occurs anywhere in the rest of
the line (not only as the token's suffix) or `m < 64`, and `m`
otherwise. -/
theorem extract_memory_scaling (d s : Str) (m : Nat)
    (hd : ∀ ch ∈ d, ch.isDigit = true)
    (hm : parseU32 d = some m)
    (hs : ∀ ch, s.head? = some ch → ch.isDigit = false)
    (hn : '\n' ∉ s) (hr : '\r' ∉ s) :
    extract_memory (str "-m " ++ d ++ s) =
      some (if s.contains 'G' = true ∨ m < 64 then m * 1024 % 2 ^ 32 else m) := by
  have hdn : '\n' ∉ d := fun hmem => by
    have h1 := hd _ hmem
    rw [show ('\n').isDigit = false from rfl] at h1
    exact absurd h1 (by decide)
  have hdr : '\r' ∉ d := fun hmem => by
    have h1 := hd _ hmem
    rw [show ('\r').isDigit = false from rfl] at h1
    exact absurd h1 (by decide)
  have hcn : '\n' ∉ str "-m " ++ d ++ s := by
    simp only [List.append_assoc, List.mem_append]
    rintro (h | h | h)
    · exact absurd h (by decide)
    · exact hdn h
    · exact hn h
  have hcr : '\r' ∉ str "-m " ++ d ++ s := by
    simp only [List.append_assoc, List.mem_append]
    rintro (h | h | h)
    · exact absurd h (by decide)
    · exact hdr h
    · exact hr h
  have hcne : str "-m " ++ d ++ s ≠ [] := by simp [str]
  have hlines : rustLines (str "-m " ++ d ++ s) = [str "-m " ++ d ++ s] :=
    rustLines_single _ hcne hcn hcr
  have hcomment : isCommentLine (str "-m " ++ d ++ s) = false := by
    have : str "-m " ++ d ++ s = '-' :: (str "m " ++ d ++ s) := rfl
    rw [this, isCommentLine_dash]
  have hfind : findStr (str "-m " ++ d ++ s) (str "-m ") = some 0 := by
    apply findStr_of_pref
    rw [ List.isPrefixOf_iff_prefix, List.append_assoc]
    exact List.prefix_append _ _
  have hdrop : (str "-m " ++ d ++ s).drop (0 + 3) = d ++ s := by
    rw [List.append_assoc]
    exact List.drop_left (str "-m ") (d ++ s)
  have htake : (d ++ s).takeWhile Char.isDigit = d :=
    takeWhile_all_append Char.isDigit d s hd hs
  have hcontains : (d ++ s).contains 'G' = s.contains 'G' := by
    rw [containsChar_append, digits_no_G d hd, Bool.false_or]
  unfold extract_memory
  rw [hlines]
  show (if isCommentLine (str "-m " ++ d ++ s) = true
    then extractMemoryLines []
    else match findStr (str "-m " ++ d ++ s) (str "-m ") with
      | some idx =>
        let rest := (str "-m " ++ d ++ s).drop (idx + 3)
        let value := rest.takeWhile Char.isDigit
        match parseU32 value with
        | some mem =>
          if rest.contains 'G' then some (mem * 1024 % 2 ^ 32)
          else if mem < 64 then some (mem * 1024 % 2 ^ 32)
          else some mem
        | none => extractMemoryLines []
      | none => extractMemoryLines []) = _
  rw [hcomment]
  simp only [Bool.false_eq_true, if_false, hfind]
  simp only [hdrop, htake, hm, hcontains]
  by_cases hG : s.contains 'G' = true
  · have hmem : 'G' ∈ s := by simpa using hG
    simp [hG, hmem]
  · have hmem : 'G' ∉ s := by simpa using hG
    by_cases h64 : m < 64
    · simp [hG, hmem, h64]
    · simp [hG, hmem, h64]

/-- Witness for the amended C1 theorem at the spec's own example input. -/
theorem extract_memory_scaling_witness : extract_memory (str "-m 512") = some 512 := by
  have h := extract_memory_scaling (str "512") [] 512 (by decide) (by decide)
    (by intro ch hch; simp at hch) (by simp) (by simp)
  have e1 : str "-m " ++ str "512" ++ ([] : Str) = str "-m 512" := by decide
  have e2 : (if (([] : Str).contains 'G' = true ∨ 512 < 64) then 512 * 1024 % 2 ^ 32 else 512)
      = 512 := by decide
  rw [e1, e2] at h
  exact h

theorem extractDisksGo_eq (vm_dir : Str) : ∀ (ls : List Str) (acc : List DiskConfig),
    extractDisksGo vm_dir ls acc = acc ++ ls.flatMap
      (fun l => if isCommentLine l then []
        else legacyDisksLine l vm_dir ++ driveDisksLine l vm_dir) := by
  intro ls
  induction ls with
  | nil =>
    intro acc
    simp [extractDisksGo]
  | cons l ls ih =>
    intro acc
    by_cases hcl : isCommentLine l
    · simp only [extractDisksGo, if_pos hcl, ih, List.flatMap_cons, hcl, if_true,
        List.nil_append]
    · simp [extractDisksGo, hcl, ih, List.append_assoc]

/-- Claim C4 counterexample: on the single line `-hdb b.img -hda a.img`
the `-hdb` flag appears first (index 0, before `-hda` at index 11), yet
its disk is listed second, because legacy slots are scanned in the fixed
order hda..hdd rather than by position. -/
theorem disks_slot_order :
    (extract_disks (str "-hdb b.img -hda a.img") (str "/vm")).map DiskConfig.path =
      [str "/vm/a.img", str "/vm/b.img"] ∧
    findStr (str "-hdb b.img -hda a.img") (str "-hdb ") = some 0 ∧
    findStr (str "-hdb b.img -hda a.img") (str "-hda ") = some 11 ∧
    ([str "/vm/a.img", str "/vm/b.img"] : List Str) ≠ [str "/vm/b.img", str "/vm/a.img"] := by
  refine ⟨by decide, by decide, by decide, by decide⟩

/-- Claim C4 amended: the disk sequence is ordered by line: each
non-comment line contributes, in place, its legacy fixed-slot disks in
the fixed slot order hda..hdd followed by its modern drive disk,
regardless of the flags' textual positions within the line. -/
theorem extract_disks_line_order (c vm_dir : Str) :
    extract_disks c vm_dir = (rustLines c).flatMap
      (fun l => if isCommentLine l then []
        else legacyDisksLine l vm_dir ++ driveDisksLine l vm_dir) := by
  unfold extract_disks
  rw [extractDisksGo_eq]
  rfl

theorem parsedConfig_flags (p c : Str) :
    (parsedConfig p c).enable_kvm = kvmFlag c ∧
    (parsedConfig p c).uefi = uefiFlag c ∧
    (parsedConfig p c).tpm = tpmFlag c := by
  unfold parsedConfig parse_launch_script
  cases extract_emulator c <;> cases extract_memory c <;>
    cases extract_cpu_cores c <;> cases extract_vga c <;> exact ⟨rfl, rfl, rfl⟩

theorem exists_mem_or_iff {α : Type} (L : List α) (P Q : α → Prop) :
    (∃ l ∈ L, P l ∨ Q l) ↔ (∃ l ∈ L, P l) ∨ (∃ l ∈ L, Q l) := by
  constructor
  · rintro ⟨l, hl, h | h⟩
    · exact Or.inl ⟨l, hl, h⟩
    · exact Or.inr ⟨l, hl, h⟩
  · rintro (⟨l, hl, h⟩ | ⟨l, hl, h⟩)
    · exact ⟨l, hl, Or.inl h⟩
    · exact ⟨l, hl, Or.inr h⟩

/-- Claim C8 counterexample: the firmware-boot flag is not a whole-script
OR over line-contained trigger substrings for any choice of trigger set:
`-bios` and `efi` on two different lines set the flag although no line of
a script consisting of either line alone sets it. -/
theorem uefi_not_line_or :
    ¬ ∃ T : List Str, ∀ c : Str, uefiFlag c =
      (rustLines c).any (fun l => T.any (fun t => containsStr l t)) := by
  rintro ⟨T, h⟩
  have h1 := h (str "-bios\nefi")
  rw [show uefiFlag (str "-bios\nefi") = true from by decide,
      show rustLines (str "-bios\nefi") = [str "-bios", str "efi"] from by decide] at h1
  have h2 := h (str "-bios")
  rw [show uefiFlag (str "-bios") = false from by decide,
      show rustLines (str "-bios") = [str "-bios"] from by decide] at h2
  have h3 := h (str "efi")
  rw [show uefiFlag (str "efi") = false from by decide,
      show rustLines (str "efi") = [str "efi"] from by decide] at h3
  simp only [List.any_cons, List.any_nil, Bool.or_false] at h1 h2 h3
  rw [← h2, ← h3] at h1
  simp at h1

/-- Claim C8 amended: the acceleration and TPM flags are whole-script ORs
over their trigger substrings (any line, comments included); the
firmware-boot flag is true iff `OVMF` occurs on some line, or `-bios`
occurs on some line and `efi` occurs on some (possibly different) line —
a conjunctive arm, not an OR over substrings. -/
theorem feature_flags_whole_script (p c : Str) :
    ((parsedConfig p c).enable_kvm = true ↔
      ∃ l ∈ rustLines c, containsStr l (str "-enable-kvm") = true ∨
        containsStr l (str "-accel kvm") = true) ∧
    ((parsedConfig p c).tpm = true ↔
      ∃ l ∈ rustLines c, containsStr l (str "-tpmdev") = true ∨
        containsStr l (str "swtpm") = true) ∧
    ((parsedConfig p c).uefi = true ↔
      ((∃ l ∈ rustLines c, containsStr l (str "OVMF") = true) ∨
        ((∃ l ∈ rustLines c, containsStr l (str "-bios") = true) ∧
          (∃ l ∈ rustLines c, containsStr l (str "efi") = true)))) := by
  obtain ⟨h1, h2, h3⟩ := parsedConfig_flags p c
  refine ⟨?_, ?_, ?_⟩
  · rw [h1]
    unfold kvmFlag
    rw [Bool.or_eq_true,
      containsStr_lines_iff c (str "-enable-kvm") (by decide) (by decide) (by decide),
      containsStr_lines_iff c (str "-accel kvm") (by decide) (by decide) (by decide),
      exists_mem_or_iff]
  · rw [h3]
    unfold tpmFlag
    rw [Bool.or_eq_true,
      containsStr_lines_iff c (str "-tpmdev") (by decide) (by decide) (by decide),
      containsStr_lines_iff c (str "swtpm") (by decide) (by decide) (by decide),
      exists_mem_or_iff]
  · rw [h2]
    unfold uefiFlag
    rw [Bool.or_eq_true, Bool.and_eq_true,
      containsStr_lines_iff c (str "OVMF") (by decide) (by decide) (by decide),
      containsStr_lines_iff c (str "-bios") (by decide) (by decide) (by decide),
      containsStr_lines_iff c (str "efi") (by decide) (by decide) (by decide)]

theorem vmLe_trans (a b c : DiscoveredVm)
    (hab : vmLe a b = true) (hbc : vmLe b c = true) : vmLe a c = true := by
  simp only [vmLe, decide_eq_true_eq] at hab hbc ⊢
  exact le_trans hab hbc

theorem vmLe_total (a b : DiscoveredVm) : (vmLe a b || vmLe b a) = true := by
  simp only [vmLe, Bool.or_eq_true, decide_eq_true_eq]
  exact le_total _ _

/-- Claim C9 counterexample: for the identifier `windows_95`, which uses
an underscore as its separator, the derived display name keeps the
underscore (`Windows_95`) instead of the spec's separator-generic
`Windows 95` — only hyphens are replaced. -/
theorem display_name_underscore :
    display_name (str "windows_95") = str "Windows_95" ∧
    specDisplayName (str "windows_95") = str "Windows 95" ∧
    display_name (str "windows_95") ≠ specDisplayName (str "windows_95") := by
  refine ⟨by decide, by decide, by decide⟩

/-- Claim C9 amended: discovery returns its records sorted by the derived
display name, where the display name replaces hyphens (only) by spaces
and ASCII-uppercases the first character of each word, as in
`windows-95` to `Windows 95`. -/
theorem discover_vms_sorted (entries : List VmEntry) :
    List.Pairwise (fun a b => vmLe a b = true) (discover_vms entries) ∧
    display_name (str "windows-95") = str "Windows 95" := by
  constructor
  · unfold discover_vms
    exact List.sorted_mergeSort vmLe_trans vmLe_total (entries.map mkDiscoveredVm)
  · decide

/-- Claim C5: for a script with an emulator invocation line and no
existing network clause, the rewrite succeeds and inserts the synthesized
clause immediately before the first emulator invocation line (index
strictly inside the script, not at end-of-file); every other line of the
output is the corresponding input line unchanged, and rejoining the
split lines reproduces the input text byte for byte. -/
theorem insert_before_emulator (script : Str) (ch : NetChange)
    (hnet : (splitOnNl script).any isNetLine = false)
    (hemu : (splitOnNl script).any isEmuLine = true) :
    ∃ h : (splitOnNl script).findIdx isEmuLine < (splitOnNl script).length,
      isEmuLine ((splitOnNl script).get
        ⟨(splitOnNl script).findIdx isEmuLine, h⟩) = true ∧
      update_network_in_script script ch =
        some (nlJoin ((splitOnNl script).take ((splitOnNl script).findIdx isEmuLine) ++
          synthNetClause ch ::
            (splitOnNl script).drop ((splitOnNl script).findIdx isEmuLine))) ∧
      nlJoin (splitOnNl script) = script := by
  have hex : ∃ l ∈ splitOnNl script, isEmuLine l = true := by
    simpa [List.any_eq_true] using hemu
  have hlt := List.findIdx_lt_length_of_exists hex
  refine ⟨hlt, @List.findIdx_getElem _ _ _ hlt, ?_, nlJoin_splitOnNl script⟩
  unfold update_network_in_script
  simp only [hnet, hemu, Bool.false_eq_true, if_false, if_true]

/-- Witness for the C5 theorem on a two-line script with a shebang and an
emulator invocation. -/
theorem insert_before_emulator_witness :
    update_network_in_script (str "#!/bin/sh\nqemu-system-i386 -m 512\n")
      ⟨ str "e1000", str "user", none, []⟩ =
      some (str "#!/bin/sh\n-nic user,model=e1000\nqemu-system-i386 -m 512\n") := by
  obtain ⟨hlt, hat, heq, hjoin⟩ := insert_before_emulator
    (str "#!/bin/sh\nqemu-system-i386 -m 512\n")
    ⟨ str "e1000", str "user", none, []⟩ (by decide) (by decide)
  rw [heq]
  decide
